import Mathlib

/-!
Shallow embedding of the capture-lifecycle / streaming-bridge core of the
repository, from `testbench/route_testbench_data.py` and
`LocalScripts/EdgeRL_DataAcquisition.py`.

Bytes are modelled as `Nat`.  A float32 sample value is modelled by its 32-bit
IEEE-754 bit pattern (a `Nat < 2^32`): the scripts never compute with sample
values — `struct.pack('f', val)` and `row.tobytes()` only reinterpret the
32-bit pattern as 4 little-endian bytes, so the bit-pattern model is exact.
-/

/-- `BUFFER_SIZE = 988` from `route_testbench_data.py` line 55
(identically `EdgeRL_DataAcquisition.py` line 57). -/
def BUFFER_SIZE : Nat := 988

/-- The chunked send block of `route_testbench_data.py` lines 330-337
(identically `EdgeRL_DataAcquisition.py` lines 439-446), as the list of byte
chunks handed to successive `data_socket.send` calls: if `len(b) <= M` a single
send of the whole payload; else one send of each full slice `b[i*M:(i+1)*M]`
for `i in range(len(b) // M)`, followed — when `len(b) > (i+1)*M` still holds
for the final loop index `i = len(b)//M - 1` — by one send of the remainder
`b[(i+1)*M:]`. -/
def sendChunks (p : List Nat) (M : Nat) : List (List Nat) :=
  if p.length ≤ M then [p]
  else
    (List.range (p.length / M)).map (fun i => (p.drop (i * M)).take M) ++
      (if p.length > p.length / M * M then [p.drop (p.length / M * M)] else [])

/-- `struct.pack('f', val)` (`EdgeRL_DataAcquisition.py` line 436),
equivalently one float32 element of `row.tobytes()`
(`route_testbench_data.py` line 328): the 4 little-endian bytes of the
32-bit IEEE-754 bit pattern `v` of the value. -/
def packFloatLE (v : Nat) : List Nat :=
  [v % 256, v / 256 % 256, v / 65536 % 256, v / 16777216 % 256]

/-- `row.tobytes()` for one sample row (`route_testbench_data.py` line 328),
equivalently `b.join(struct.pack('f', val) for val in date)`
(`EdgeRL_DataAcquisition.py` line 436): the concatenated little-endian
float32 bytes of the row, in channel order. -/
def encodeRow (row : List Nat) : List Nat :=
  (row.map packFloatLE).flatten

/-- Encoding a whole frame: the per-row byte records concatenated in original
sample order (the loop `for row in fetched_signals_arr`,
`route_testbench_data.py` lines 326-328). -/
def encodeFrame (frame : List (List Nat)) : List Nat :=
  (frame.map encodeRow).flatten

/-- The consumer-side decoder of the wire format (§6/§8 of the spec): read
consecutive 4-byte groups as little-endian 32-bit values.  Dangling bytes —
which the encoder never produces — are dropped. -/
def decodeFloats : List Nat → List Nat
  | b0 :: b1 :: b2 :: b3 :: rest =>
      (b0 + 256 * b1 + 65536 * b2 + 16777216 * b3) :: decodeFloats rest
  | _ => []

/-- Regroup a flat list of decoded values into rows of `C` channels. -/
def groupRows (C : Nat) : List Nat → List (List Nat)
  | [] => []
  | x :: xs => (x :: xs.take (C - 1)) :: groupRows C (xs.drop (C - 1))
  termination_by l => l.length
  decreasing_by simp only [List.length_drop, List.length_cons]; omega

/-- Decode a byte stream back into a frame of `C`-channel rows. -/
def decodeFrame (C : Nat) (bs : List Nat) : List (List Nat) :=
  groupRows C (decodeFloats bs)

/-- The number of tuples Python `zip(*channel_vectors)` yields: the length of
the shortest channel vector (`zip` over no vectors yields nothing). -/
def minLen : List (List Nat) → Nat
  | [] => 0
  | [c] => c.length
  | c :: c' :: cs => min c.length (minLen (c' :: cs))

/-- The row assembly `zip(currentIdValues, currentIqValues, ...)` of
`EdgeRL_DataAcquisition.py` lines 430-432: sample `t` becomes the row of the
`t`-th element of every channel vector, in the given channel order, for every
`t` below the shortest channel length.  On equal-length channels this is also
`np.array([...]).T` of `route_testbench_data.py` lines 317-318. -/
def zipRows (cols : List (List Nat)) : List (List Nat) :=
  (List.range (minLen cols)).map (fun t => cols.map (fun c => c.getD t 0))

/-- Channel identifiers are the XIL variable path strings. -/
abbrev ChannelId := String

/-- Modelled from the spec (§4.1, §7): the `MissingChannelError` carrying the
name of the absent channel.  The extraction step of the reference
(`extract_value`, `route_testbench_data.py` lines 304-306) delegates to the
vendor call `captured_result.ExtractSignalValue(slaveTask, var_lbl)`, whose
body is not part of this repository, so the failure behaviour on an absent
channel is modelled from the contract in the spec. -/
structure MissingChannelError where
  channel : ChannelId
deriving DecidableEq

/-- Lookup of the new-sample vector of one channel in a fetch batch,
modelling the batch as a channel-to-vector association list. -/
def lookupChannel : List (ChannelId × List Nat) → ChannelId → Option (List Nat)
  | [], _ => none
  | (k, v) :: rest, ch => if k = ch then some v else lookupChannel rest ch

/-- Modelled from the spec (§4.1): per-channel retrieval over the requested
channel list, failing with a `MissingChannelError` naming the first requested
channel that is absent from the batch. -/
def extractChannels (batch : List (ChannelId × List Nat)) :
    List ChannelId → Except MissingChannelError (List (List Nat))
  | [] => Except.ok []
  | ch :: rest =>
      match lookupChannel batch ch with
      | none => Except.error ⟨ch⟩
      | some vs =>
          match extractChannels batch rest with
          | Except.error e => Except.error e
          | Except.ok tl => Except.ok (vs :: tl)

/-- The four externally observable capture states (§4.4; the XIL
`CaptureState` values polled by the scripts). -/
inductive CapState where
  | idle | armed | running | finished
deriving DecidableEq

/-- Observable actions of one session run: a `DemoCapture.Fetch(False)` call,
a `data_socket.send(chunk)` call, the socket closes of
`route_testbench_data.py` lines 341-342, and the two `Dispose()` calls of the
`finally` block (lines 373-378). -/
inductive Event where
  | fetchCall : Event
  | send : List Nat → Event
  | socketClose : Event
  | disposeCapture : Event
  | disposeMAPort : Event
deriving DecidableEq

/-- The armed-wait loop `while DemoCapture.State != CaptureState.eRUNNING`
(`route_testbench_data.py` line 290): each poll consumes one observation of
the scripted state trace; returns the unread tail, or `none` when the
scripted trace is exhausted before `running` is observed. -/
def waitRunning : List CapState → Option (List CapState)
  | [] => none
  | s :: rest => if s = CapState.running then some rest else waitRunning rest

/-- How the fetch-until-finished loop terminates. -/
inductive LoopExit where
  | finishedExit | erroredExit | exhaustedExit
deriving DecidableEq

/-- The per-batch pipeline body (`route_testbench_data.py` lines 317-337):
each row of the transposed fetch result is encoded and pushed through the
chunked send block, one `send` event per chunk. -/
def rowSends (frame : List (List Nat)) (M : Nat) : List Event :=
  (frame.map (fun row => (sendChunks (encodeRow row) M).map Event.send)).flatten

/-- The loop `while DemoCapture.State != CaptureState.eFINISHED`
(`route_testbench_data.py` lines 308-339).  Each iteration reads one state
observation; on a non-`finished` state it performs one `Fetch` whose scripted
result is either `some cols` (the per-channel vectors of the batch, processed
by the pipeline body) or `none` (the call raises, modelling a vendor fault);
observing `finished` exits the loop at once, with no further fetch. -/
def fetchLoop (M : Nat) : List CapState → List (Option (List (List Nat))) →
    List Event × LoopExit
  | [], _ => ([], LoopExit.exhaustedExit)
  | s :: rest, fetches =>
      if s = CapState.finished then ([], LoopExit.finishedExit)
      else
        match fetches with
        | [] => ([], LoopExit.exhaustedExit)
        | none :: _ => ([Event.fetchCall], LoopExit.erroredExit)
        | some cols :: fs =>
            (Event.fetchCall ::
                (rowSends (zipRows cols) M ++ (fetchLoop M rest fs).1),
              (fetchLoop M rest fs).2)

/-- One session run from the armed-wait loop to the `finally` block: on
normal completion the sockets are closed (lines 341-342) and the `finally`
block disposes capture and port; on an error raised inside the loop only the
`finally` block runs — the sockets stay open — and the error propagates to
the caller (`Bool` result `true`).  `none` when the scripted traces are too
short to drive the run to an exit. -/
def runDriver (M : Nat) (states : List CapState)
    (fetches : List (Option (List (List Nat)))) : Option (List Event × Bool) :=
  match waitRunning states with
  | none => none
  | some rest =>
      match fetchLoop M rest fetches with
      | (_, LoopExit.exhaustedExit) => none
      | (evs, LoopExit.finishedExit) =>
          some (evs ++ [Event.socketClose, Event.disposeCapture, Event.disposeMAPort],
            false)
      | (evs, LoopExit.erroredExit) =>
          some (evs ++ [Event.disposeCapture, Event.disposeMAPort], true)

/-- The guarded `finally` block (`route_testbench_data.py` lines 373-378) as
a transformer on the two object references: dispose each reference that is
not `None`, then set both to `None`. -/
def finallyBlock (cap port : Option Unit) :
    List Event × Option Unit × Option Unit :=
  ((match cap with | some _ => [Event.disposeCapture] | none => []) ++
      (match port with | some _ => [Event.disposeMAPort] | none => []),
    none, none)

/-- Concatenating the first `n` full `M`-slices of `p` gives `p.take (n*M)`. -/
theorem flatten_fullSlices (p : List Nat) (M n : Nat) :
    ((List.range n).map (fun i => (p.drop (i * M)).take M)).flatten =
      p.take (n * M) := by
  induction n with
  | zero => simp
  | succ n ih =>
      rw [List.range_succ, List.map_append, List.flatten_append, ih]
      simp [Nat.succ_mul, List.take_add]

/-- Every full slice indexed by the Python `for` loop has length exactly `M`. -/
theorem fullSlice_length (p : List Nat) (M i : Nat) (hi : i < p.length / M) :
    ((p.drop (i * M)).take M).length = M := by
  have h1 : p.length / M * M ≤ p.length := Nat.div_mul_le_self _ _
  have h2 : (i + 1) * M ≤ p.length / M * M :=
    Nat.mul_le_mul_right M hi
  rw [add_mul, one_mul] at h2
  simp only [List.length_take, List.length_drop]
  omega

/-- The bytes sent by the chunked send block, concatenated in emission order,
are exactly the payload. -/
theorem sendChunks_flatten (p : List Nat) (M : Nat) :
    (sendChunks p M).flatten = p := by
  unfold sendChunks
  split
  · simp
  · by_cases hr : p.length > p.length / M * M
    · simp only [hr, if_pos]
      rw [List.flatten_append, flatten_fullSlices]
      simp [List.take_append_drop]
    · simp only [hr, if_neg, not_false_iff]
      rw [List.append_nil, flatten_fullSlices,
        List.take_of_length_le (by omega)]

/-- Arithmetic form of the ceiling division `(M*q + r + M - 1) / M`. -/
theorem ceil_div_eq (M q r : Nat) (hM : 0 < M) (hr : r < M) :
    (M * q + r + M - 1) / M = if r = 0 then q else q + 1 := by
  by_cases hz : r = 0
  · subst hz
    have h2 : M * q + 0 + M - 1 = M * q + (M - 1) := by omega
    rw [h2, Nat.mul_add_div hM, Nat.div_eq_of_lt (by omega)]
    simp
  · have h2 : M * q + r + M - 1 = M * (q + 1) + (r - 1) := by
      rw [Nat.mul_add, Nat.mul_one]; omega
    rw [h2, Nat.mul_add_div hM, Nat.div_eq_of_lt (by omega)]
    simp [hz]

/-- The chunked send block issues exactly `ceil(len(p) / M)` sends for a
non-empty payload and positive buffer size. -/
theorem sendChunks_length (p : List Nat) (M : Nat) (hp : p ≠ []) (hM : 0 < M) :
    (sendChunks p M).length = (p.length + M - 1) / M := by
  have hn : 0 < p.length := List.length_pos.mpr hp
  obtain ⟨q, r, hdm, hmod⟩ : ∃ q r, M * q + r = p.length ∧ r < M :=
    ⟨p.length / M, p.length % M, Nat.div_add_mod _ _, Nat.mod_lt _ hM⟩
  have hq : p.length / M = q := by
    rw [← hdm, Nat.mul_add_div hM, Nat.div_eq_of_lt hmod, Nat.add_zero]
  rw [show p.length + M - 1 = M * q + r + M - 1 from by omega,
    ceil_div_eq M q r hM hmod]
  unfold sendChunks
  rw [hq]
  split
  · -- single-send branch: 1 ≤ n ≤ M
    rename_i hle
    rcases q with _ | q'
    · -- q = 0 forces r = n, so r ≠ 0
      rw [Nat.mul_zero, Nat.zero_add] at hdm
      simp [show r ≠ 0 from by omega]
    · -- q = q' + 1: the bound n ≤ M forces q' = 0 and r = 0
      have hq' : q' = 0 := by
        by_contra h
        have h2 : 2 ≤ q' + 1 := by omega
        have := Nat.mul_le_mul_left M h2
        omega
      subst hq'
      rw [Nat.mul_one] at hdm
      simp [show r = 0 from by omega]
  · rename_i hgt
    push_neg at hgt
    have hcomm : q * M = M * q := Nat.mul_comm q M
    rw [List.length_append, List.length_map, List.length_range]
    by_cases hrg : p.length > q * M
    · rw [if_pos hrg, List.length_singleton]
      simp [show r ≠ 0 from by omega]
    · rw [if_neg hrg]
      simp [show r = 0 from by omega]

/-- Every chunk issued by the send block for a non-empty payload carries
between 1 and `M` bytes. -/
theorem sendChunks_mem_length (p : List Nat) (M : Nat) (hp : p ≠ []) (hM : 0 < M) :
    ∀ c ∈ sendChunks p M, 1 ≤ c.length ∧ c.length ≤ M := by
  have hn : 0 < p.length := List.length_pos.mpr hp
  have hdm := Nat.div_add_mod p.length M
  have hmod : p.length % M < M := Nat.mod_lt _ hM
  have hcomm : p.length / M * M = M * (p.length / M) := Nat.mul_comm _ _
  intro c hc
  unfold sendChunks at hc
  split at hc
  · rename_i hle
    simp only [List.mem_singleton] at hc
    subst hc; omega
  · rcases List.mem_append.mp hc with h | h
    · rcases List.mem_map.mp h with ⟨i, hi, rfl⟩
      rw [fullSlice_length p M i (List.mem_range.mp hi)]
      omega
    · by_cases hr : p.length > p.length / M * M
      · simp only [hr, if_pos, List.mem_singleton] at h
        subst h
        simp only [List.length_drop]
        omega
      · simp [hr] at h

/-- Every chunk except the last one carries exactly `M` bytes. -/
theorem sendChunks_dropLast (p : List Nat) (M : Nat) :
    ∀ c ∈ (sendChunks p M).dropLast, c.length = M := by
  intro c hc
  unfold sendChunks at hc
  split at hc
  · simp at hc
  · by_cases hr : p.length > p.length / M * M
    · simp only [hr, if_pos] at hc
      rw [List.dropLast_concat] at hc
      rcases List.mem_map.mp hc with ⟨i, hi, rfl⟩
      exact fullSlice_length p M i (List.mem_range.mp hi)
    · simp only [hr, if_neg, not_false_iff, List.append_nil] at hc
      have hc' := List.dropLast_subset _ hc
      rcases List.mem_map.mp hc' with ⟨i, hi, rfl⟩
      exact fullSlice_length p M i (List.mem_range.mp hi)

/-- The send block always issues at least one send (even for an empty payload,
the `len(b) <= BUFFER_SIZE` branch fires and sends it). -/
theorem sendChunks_ne_nil (p : List Nat) (M : Nat) : sendChunks p M ≠ [] := by
  unfold sendChunks
  split
  · simp
  · rename_i hgt
    push_neg at hgt
    intro h
    rcases List.append_eq_nil.mp h with ⟨h1, h2⟩
    rw [List.map_eq_nil_iff, List.range_eq_nil] at h1
    rw [h1] at h2
    have hn : 0 < p.length := by omega
    simp [hn] at h2

theorem encodeRow_cons (v : Nat) (r : List Nat) :
    encodeRow (v :: r) = packFloatLE v ++ encodeRow r := by
  simp [encodeRow]

/-- One row of `C` values encodes to exactly `4*C` bytes. -/
theorem encodeRow_length (row : List Nat) :
    (encodeRow row).length = 4 * row.length := by
  induction row with
  | nil => rfl
  | cons v r ih =>
      rw [encodeRow_cons, List.length_append, ih]
      simp [packFloatLE]
      omega

theorem encodeFrame_cons (r : List Nat) (f : List (List Nat)) :
    encodeFrame (r :: f) = encodeRow r ++ encodeFrame f := by
  simp [encodeFrame]

/-- Encoding `N` samples across `C` channels produces exactly `N*C*4` bytes. -/
theorem encodeFrame_length (frame : List (List Nat)) (C : Nat)
    (h : ∀ r ∈ frame, r.length = C) :
    (encodeFrame frame).length = frame.length * C * 4 := by
  induction frame with
  | nil => simp [encodeFrame]
  | cons r f ih =>
      rw [encodeFrame_cons, List.length_append, encodeRow_length,
        h r (List.mem_cons_self r f),
        ih (fun x hx => h x (List.mem_cons_of_mem r hx))]
      simp [List.length_cons]
      ring

/-- Decoding the bytes of one encoded row recovers the row in front of
whatever follows, provided the bit patterns fit in 32 bits. -/
theorem decodeFloats_encodeRow (row rest : List Nat)
    (h : ∀ v ∈ row, v < 2 ^ 32) :
    decodeFloats (encodeRow row ++ rest) = row ++ decodeFloats rest := by
  induction row with
  | nil => simp [encodeRow]
  | cons v r ih =>
      have hv : v < 2 ^ 32 := h v (List.mem_cons_self v r)
      have hrest : ∀ u ∈ r, u < 2 ^ 32 := fun u hu => h u (List.mem_cons_of_mem v hu)
      have hstep : encodeRow (v :: r) ++ rest =
          v % 256 :: v / 256 % 256 :: v / 65536 % 256 :: v / 16777216 % 256 ::
            (encodeRow r ++ rest) := by
        simp [encodeRow, packFloatLE]
      rw [hstep, decodeFloats, ih hrest]
      congr 1
      omega

/-- Decoding a whole encoded frame yields the concatenation of its rows. -/
theorem decodeFloats_encodeFrame (frame : List (List Nat))
    (h : ∀ r ∈ frame, ∀ v ∈ r, v < 2 ^ 32) :
    decodeFloats (encodeFrame frame) = frame.flatten := by
  induction frame with
  | nil => rfl
  | cons r f ih =>
      rw [encodeFrame_cons, decodeFloats_encodeRow r _ (h r (List.mem_cons_self r f)),
        ih (fun x hx => h x (List.mem_cons_of_mem r hx)), List.flatten_cons]

/-- Regrouping the flattened rows of a frame whose rows all have width
`C > 0` recovers the frame. -/
theorem groupRows_flatten (C : Nat) (hC : 0 < C) (frame : List (List Nat))
    (h : ∀ r ∈ frame, r.length = C) :
    groupRows C frame.flatten = frame := by
  induction frame with
  | nil => simp [groupRows]
  | cons r f ih =>
      have hr : r.length = C := h r (List.mem_cons_self r f)
      rcases r with _ | ⟨x, xs⟩
      · simp at hr; omega
      · have hxs : xs.length = C - 1 := by
          simp only [List.length_cons] at hr; omega
        simp only [List.flatten_cons, List.cons_append]
        rw [groupRows, ← hxs, List.take_left, List.drop_left,
          ih (fun y hy => h y (List.mem_cons_of_mem _ hy))]

theorem minLen_le (cols : List (List Nat)) : ∀ c ∈ cols, minLen cols ≤ c.length := by
  induction cols with
  | nil => intro c hc; simp at hc
  | cons c cs ih =>
      intro d hd
      rcases cs with _ | ⟨c', cs'⟩
      · simp at hd; subst hd; simp [minLen]
      · rcases List.mem_cons.mp hd with h | h
        · subst h
          exact min_le_left _ _
        · exact le_trans (min_le_right _ _) (ih d h)

theorem minLen_attained (cols : List (List Nat)) (h : cols ≠ []) :
    ∃ c ∈ cols, minLen cols = c.length := by
  induction cols with
  | nil => exact absurd rfl h
  | cons c cs ih =>
      rcases cs with _ | ⟨c', cs'⟩
      · exact ⟨c, List.mem_singleton.mpr rfl, rfl⟩
      · rcases le_total c.length (minLen (c' :: cs')) with hle | hle
        · exact ⟨c, List.mem_cons_self _ _, min_eq_left hle⟩
        · obtain ⟨d, hd, hdl⟩ := ih (by simp)
          exact ⟨d, List.mem_cons_of_mem c hd, by
            show min c.length (minLen (c' :: cs')) = d.length
            rw [min_eq_right hle, hdl]⟩

theorem zipRows_length (cols : List (List Nat)) :
    (zipRows cols).length = minLen cols := by
  simp [zipRows]

theorem zipRows_row_length (cols : List (List Nat)) :
    ∀ row ∈ zipRows cols, row.length = cols.length := by
  intro row hrow
  obtain ⟨t, _, rfl⟩ := List.mem_map.mp hrow
  simp

/-- A payload that fits in one buffer goes out in a single send. -/
theorem sendChunks_small (p : List Nat) (M : Nat) (h : p.length ≤ M) :
    sendChunks p M = [p] := by
  unfold sendChunks
  rw [if_pos h]

/-- The pipeline body only ever emits `send` events. -/
theorem mem_rowSends (frame : List (List Nat)) (M : Nat) :
    ∀ e ∈ rowSends frame M, ∃ c, e = Event.send c := by
  intro e he
  obtain ⟨l, hl, hel⟩ := List.mem_flatten.mp he
  obtain ⟨row, hrow, rfl⟩ := List.mem_map.mp hl
  obtain ⟨c, hc, rfl⟩ := List.mem_map.mp hel
  exact ⟨c, rfl⟩

theorem rowSends_count (frame : List (List Nat)) (M : Nat) (e : Event)
    (h : ∀ c, e ≠ Event.send c) : (rowSends frame M).count e = 0 :=
  List.count_eq_zero.mpr (fun hmem => by
    obtain ⟨c, rfl⟩ := mem_rowSends frame M e hmem
    exact h c rfl)

/-- The fetch loop only ever emits `fetchCall` and `send` events. -/
theorem fetchLoop_events (M : Nat) (states : List CapState) :
    ∀ (fetches : List (Option (List (List Nat)))),
      ∀ e ∈ (fetchLoop M states fetches).1,
        e = Event.fetchCall ∨ ∃ c, e = Event.send c := by
  induction states with
  | nil => intro fetches e he; simp [fetchLoop] at he
  | cons s rest ih =>
      intro fetches e he
      by_cases hs : s = CapState.finished
      · subst hs
        simp [fetchLoop] at he
      · rcases fetches with _ | ⟨of, fs⟩
        · simp [fetchLoop, hs] at he
        · rcases of with _ | cols
          · simp [fetchLoop, hs] at he
            subst he
            exact Or.inl rfl
          · have hstep : fetchLoop M (s :: rest) (some cols :: fs) =
                (Event.fetchCall ::
                    (rowSends (zipRows cols) M ++ (fetchLoop M rest fs).1),
                  (fetchLoop M rest fs).2) := by
              rw [fetchLoop.eq_def]
              simp [hs]
            rw [hstep] at he
            simp only [List.mem_cons, List.mem_append] at he
            rcases he with rfl | he
            · exact Or.inl rfl
            · rcases he with he | he
              · exact Or.inr (mem_rowSends _ _ e he)
              · exact ih fs e he

theorem fetchLoop_count (M : Nat) (states : List CapState)
    (fetches : List (Option (List (List Nat)))) (e : Event)
    (h1 : e ≠ Event.fetchCall) (h2 : ∀ c, e ≠ Event.send c) :
    ((fetchLoop M states fetches).1).count e = 0 :=
  List.count_eq_zero.mpr (fun hmem => by
    rcases fetchLoop_events M states fetches e hmem with h | ⟨c, rfl⟩
    · exact h1 h
    · exact h2 c rfl)

/-- When every encoded row fits in one buffer, the pipeline body issues
exactly one send per sample row, carrying that whole record. -/
theorem rowSends_small (frame : List (List Nat)) (M : Nat)
    (h : ∀ row ∈ frame, 4 * row.length ≤ M) :
    rowSends frame M = frame.map (fun row => Event.send (encodeRow row)) := by
  induction frame with
  | nil => rfl
  | cons row f ih =>
      have h1 : (encodeRow row).length ≤ M := by
        rw [encodeRow_length]; exact h row (List.mem_cons_self _ _)
      have ih' := ih (fun r hr => h r (List.mem_cons_of_mem _ hr))
      simp only [rowSends, List.map_cons, List.flatten_cons] at ih' ⊢
      rw [sendChunks_small _ _ h1, ih']
      rfl

/-- C1: for every non-empty payload and every positive `max_unit`, the chunked
send block emits chunks whose concatenation, in emission order, is exactly the
payload; the number of chunks is `ceil(len(P)/M)`; every chunk except possibly
the last has length exactly `M`; the final chunk (indeed every chunk) has
length between 1 and `M`.  Concretely, a 2000-byte payload with
`max_unit = 988` goes out as 3 chunks of 988, 988 and 24 bytes, in order. -/
theorem claim_C1 :
    (∀ (p : List Nat) (M : Nat), p ≠ [] → 0 < M →
      (sendChunks p M).flatten = p ∧
      (sendChunks p M).length = (p.length + M - 1) / M ∧
      (∀ c ∈ (sendChunks p M).dropLast, c.length = M) ∧
      (∀ c ∈ sendChunks p M, 1 ≤ c.length ∧ c.length ≤ M)) ∧
    (sendChunks (List.replicate 2000 7) BUFFER_SIZE).map List.length =
      [988, 988, 24] := by
  constructor
  · intro p M hp hM
    exact ⟨sendChunks_flatten p M, sendChunks_length p M hp hM,
      sendChunks_dropLast p M, sendChunks_mem_length p M hp hM⟩
  · have hlen : (List.replicate 2000 (7 : Nat)).length = 2000 :=
      List.length_replicate _ _
    unfold sendChunks BUFFER_SIZE
    rw [hlen]
    norm_num
    rw [show List.range 2 = [0, 1] from rfl]
    norm_num

/-- Witness for C1 at the payload `[1, 2, 3]` with `max_unit = 2`. -/
theorem claim_C1_witness :
    (([1, 2, 3] : List Nat) ≠ [] ∧ 0 < 2) ∧
      ((sendChunks [1, 2, 3] 2).flatten = [1, 2, 3] ∧
       (sendChunks [1, 2, 3] 2).length = (([1, 2, 3] : List Nat).length + 2 - 1) / 2 ∧
       (∀ c ∈ (sendChunks [1, 2, 3] 2).dropLast, c.length = 2) ∧
       (∀ c ∈ sendChunks [1, 2, 3] 2, 1 ≤ c.length ∧ c.length ≤ 2)) :=
  ⟨⟨by decide, by decide⟩, claim_C1.1 [1, 2, 3] 2 (by decide) (by decide)⟩

/-- C2: encoding a frame of `N` samples across `C` channels produces exactly
`N*C*4` bytes; concretely, for channels `[I_d, I_q]` and batch
`I_d = [1.0, 2.0]`, `I_q = [3.0, 4.0]` — the float32 bit patterns
1065353216, 1073741824, 1077936128, 1082130432 — the frame is
`[[1.0, 3.0], [2.0, 4.0]]` and its encoding is the 16-byte little-endian
stream below, rows in sample order and channels in list order. -/
theorem claim_C2 :
    (∀ (frame : List (List Nat)) (C : Nat), (∀ r ∈ frame, r.length = C) →
      (encodeFrame frame).length = frame.length * C * 4) ∧
    zipRows [[1065353216, 1073741824], [1077936128, 1082130432]] =
      [[1065353216, 1077936128], [1073741824, 1082130432]] ∧
    encodeFrame [[1065353216, 1077936128], [1073741824, 1082130432]] =
      [0, 0, 128, 63, 0, 0, 64, 64, 0, 0, 0, 64, 0, 0, 128, 64] ∧
    (encodeFrame [[1065353216, 1077936128], [1073741824, 1082130432]]).length = 16 := by
  refine ⟨fun frame C h => encodeFrame_length frame C h, by decide, by decide, by decide⟩

/-- Witness for C2 at the 2-sample, 2-channel frame `[[1, 2], [3, 4]]`. -/
theorem claim_C2_witness :
    (∀ r ∈ ([[1, 2], [3, 4]] : List (List Nat)), r.length = 2) ∧
      (encodeFrame [[1, 2], [3, 4]]).length =
        ([[1, 2], [3, 4]] : List (List Nat)).length * 2 * 4 :=
  ⟨by decide, claim_C2.1 [[1, 2], [3, 4]] 2 (by decide)⟩

/-- C5 counterexample: with channel A holding 5 samples and channel B only 4,
the `zip`-based row assembly silently yields the 4 truncated rows — it has no
error outcome at all, and no `InconsistentBatchLengthError` exists anywhere in
the code. -/
theorem claim_C5_counterexample :
    zipRows [[1, 2, 3, 4, 5], [6, 7, 8, 9]] = [[1, 6], [2, 7], [3, 8], [4, 9]] ∧
    (zipRows [[1, 2, 3, 4, 5], [6, 7, 8, 9]]).length = 4 := by
  decide

/-- C5 amended: on a per-channel length mismatch the extractor does not fail;
it silently truncates every channel to the shortest sequence: the number of
assembled rows is the minimum channel length (attained by some channel and
never exceeding any channel), and each row still covers all channels. -/
theorem claim_C5_amended (cols : List (List Nat)) :
    (zipRows cols).length = minLen cols ∧
    (∀ row ∈ zipRows cols, row.length = cols.length) ∧
    (∀ c ∈ cols, minLen cols ≤ c.length) ∧
    (cols ≠ [] → ∃ c ∈ cols, minLen cols = c.length) :=
  ⟨zipRows_length cols, zipRows_row_length cols, minLen_le cols,
    minLen_attained cols⟩

/-- Witness for C5 (amended) at the batch `[[1, 2], [3]]`. -/
theorem claim_C5_amended_witness :
    ([[1, 2], [3]] : List (List Nat)) ≠ [] ∧
      (zipRows [[1, 2], [3]]).length = minLen [[1, 2], [3]] ∧
      ∃ c ∈ ([[1, 2], [3]] : List (List Nat)), minLen [[1, 2], [3]] = c.length :=
  ⟨by decide, (claim_C5_amended [[1, 2], [3]]).1,
    (claim_C5_amended [[1, 2], [3]]).2.2.2 (by decide)⟩

/-- C6: whenever some requested channel is absent from the batch, the
(spec-modelled) extraction fails with a `MissingChannelError` naming a
requested channel that is indeed absent. -/
theorem claim_C6 (batch : List (ChannelId × List Nat))
    (channels : List ChannelId) (ch : ChannelId)
    (hmem : ch ∈ channels) (habs : lookupChannel batch ch = none) :
    ∃ ch₂, ch₂ ∈ channels ∧ lookupChannel batch ch₂ = none ∧
      extractChannels batch channels = Except.error ⟨ch₂⟩ := by
  induction channels with
  | nil => simp at hmem
  | cons c rest ih =>
      cases hcl : lookupChannel batch c with
      | none =>
          refine ⟨c, List.mem_cons_self _ _, hcl, ?_⟩
          unfold extractChannels
          rw [hcl]
      | some vs =>
          have hcr : ch ∈ rest := by
            rcases List.mem_cons.mp hmem with rfl | h
            · rw [habs] at hcl; cases hcl
            · exact h
          obtain ⟨ch₂, hm2, hn2, he2⟩ := ih hcr
          refine ⟨ch₂, List.mem_cons_of_mem _ hm2, hn2, ?_⟩
          unfold extractChannels
          rw [hcl, he2]

/-- Witness for C6: batch holding only channel `a`, request `[a, b]`. -/
theorem claim_C6_witness :
    ("b" ∈ ["a", "b"] ∧ lookupChannel [("a", [1])] "b" = none) ∧
      ∃ ch₂, ch₂ ∈ ["a", "b"] ∧ lookupChannel [("a", [1])] ch₂ = none ∧
        extractChannels [("a", [1])] ["a", "b"] = Except.error ⟨ch₂⟩ :=
  ⟨⟨by decide, by decide⟩,
    claim_C6 [("a", [1])] ["a", "b"] "b" (by decide) (by decide)⟩

/-- C7: decoding the encoder output — reading consecutive little-endian
float32 values and regrouping into rows of `C` — reconstructs the frame
exactly, bit pattern for bit pattern. -/
theorem claim_C7 (frame : List (List Nat)) (C : Nat) (hC : 0 < C)
    (hlen : ∀ r ∈ frame, r.length = C)
    (hval : ∀ r ∈ frame, ∀ v ∈ r, v < 2 ^ 32) :
    decodeFrame C (encodeFrame frame) = frame := by
  unfold decodeFrame
  rw [decodeFloats_encodeFrame frame hval, groupRows_flatten C hC frame hlen]

/-- Witness for C7 at the frame `[[1, 2], [3, 4]]` with `C = 2`. -/
theorem claim_C7_witness :
    (0 < 2 ∧ (∀ r ∈ ([[1, 2], [3, 4]] : List (List Nat)), r.length = 2) ∧
      (∀ r ∈ ([[1, 2], [3, 4]] : List (List Nat)), ∀ v ∈ r, v < 2 ^ 32)) ∧
      decodeFrame 2 (encodeFrame [[1, 2], [3, 4]]) = [[1, 2], [3, 4]] :=
  ⟨⟨by decide, by decide, by decide⟩,
    claim_C7 [[1, 2], [3, 4]] 2 (by decide) (by decide) (by decide)⟩

/-- C8 counterexample: for the empty payload the send block takes the
`len(b) <= BUFFER_SIZE` branch and still issues exactly one `send`, carrying
the empty byte string — not zero writes. -/
theorem claim_C8_counterexample :
    sendChunks [] BUFFER_SIZE = [[]] ∧
    (sendChunks [] BUFFER_SIZE).length ≠ 0 := by
  decide

/-- C8 amended: for a payload of zero length the send block issues exactly one
write call, carrying zero bytes, for every buffer size `M` — zero bytes are
transmitted, but one (empty) `send` call is made. -/
theorem claim_C8_amended (M : Nat) :
    sendChunks [] M = [[]] ∧
    (sendChunks [] M).flatten = [] ∧
    (sendChunks [] M).length = 1 := by
  refine ⟨?_, ?_, ?_⟩ <;> simp [sendChunks]

/-- C9: the chunked send is applied per encoded sample row, so whenever each
row of the frame encodes to at most `max_unit` bytes (`4*C ≤ M`), every sample
record goes out in exactly one `send` carrying that whole record — record
boundaries coincide with write boundaries.  Concretely two 4-channel rows
(16 bytes each, vs `BUFFER_SIZE = 988`) go out as exactly two sends. -/
theorem claim_C9 :
    (∀ (frame : List (List Nat)) (M : Nat),
      (∀ row ∈ frame, 4 * row.length ≤ M) →
      rowSends frame M = frame.map (fun row => Event.send (encodeRow row)) ∧
      (rowSends frame M).length = frame.length) ∧
    rowSends [[1, 2, 3, 4], [5, 6, 7, 8]] BUFFER_SIZE =
      [Event.send (encodeRow [1, 2, 3, 4]), Event.send (encodeRow [5, 6, 7, 8])] := by
  constructor
  · intro frame M h
    have heq := rowSends_small frame M h
    exact ⟨heq, by rw [heq, List.length_map]⟩
  · decide

/-- Witness for C9 at a 2-row, 2-channel frame with `M = 8`. -/
theorem claim_C9_witness :
    (∀ row ∈ ([[1, 2], [3, 4]] : List (List Nat)), 4 * row.length ≤ 8) ∧
      (rowSends [[1, 2], [3, 4]] 8 =
        ([[1, 2], [3, 4]] : List (List Nat)).map
          (fun row => Event.send (encodeRow row)) ∧
       (rowSends [[1, 2], [3, 4]] 8).length =
         ([[1, 2], [3, 4]] : List (List Nat)).length) :=
  ⟨by decide, claim_C9.1 [[1, 2], [3, 4]] 8 (by decide)⟩

/-- C10: when the payload length is an exact multiple `k*M` with `k ≥ 2`, the
send block issues exactly the `k` full slices — each of exactly `M` bytes —
and the remainder branch is skipped, so no zero-length trailing write is
emitted. -/
theorem claim_C10 (p : List Nat) (M k : Nat) (hM : 0 < M) (hk : 2 ≤ k)
    (hlen : p.length = k * M) :
    sendChunks p M = (List.range k).map (fun i => (p.drop (i * M)).take M) ∧
    (sendChunks p M).length = k ∧
    ∀ c ∈ sendChunks p M, c.length = M := by
  have h2 : 2 * M ≤ k * M := Nat.mul_le_mul_right M hk
  have hgt : ¬ p.length ≤ M := by omega
  have hq : p.length / M = k := by rw [hlen, Nat.mul_div_cancel _ hM]
  have heq : sendChunks p M =
      (List.range k).map (fun i => (p.drop (i * M)).take M) := by
    unfold sendChunks
    rw [if_neg hgt, hq, hlen]
    simp
  refine ⟨heq, ?_, ?_⟩
  · rw [heq]; simp
  · intro c hc
    rw [heq] at hc
    rcases List.mem_map.mp hc with ⟨i, hi, rfl⟩
    exact fullSlice_length p M i (by rw [hq]; exact List.mem_range.mp hi)

/-- Witness for C10 at `p = [1, 2, 3, 4]`, `M = 2`, `k = 2`. -/
theorem claim_C10_witness :
    (0 < 2 ∧ 2 ≤ 2 ∧ ([1, 2, 3, 4] : List Nat).length = 2 * 2) ∧
      (sendChunks [1, 2, 3, 4] 2 =
        (List.range 2).map (fun i => (([1, 2, 3, 4] : List Nat).drop (i * 2)).take 2) ∧
       (sendChunks [1, 2, 3, 4] 2).length = 2 ∧
       ∀ c ∈ sendChunks [1, 2, 3, 4] 2, c.length = 2) :=
  ⟨⟨by decide, by decide, by decide⟩,
    claim_C10 [1, 2, 3, 4] 2 2 (by decide) (by decide) (by decide)⟩

/-- C3 counterexample: driving the run with observed states Idle, Armed,
Running, Running, Running, Finished and two scripted non-empty batches,
exactly two fetch calls occur in total — the claimed additional drain fetch
after `Finished` (which would make three) never happens: the loop exits
directly to socket close and teardown. -/
theorem claim_C3_counterexample :
    runDriver BUFFER_SIZE
        [CapState.idle, CapState.armed, CapState.running, CapState.running,
          CapState.running, CapState.finished]
        [some [[10], [20]], some [[30], [40]]] =
      some ([Event.fetchCall, Event.send [10, 0, 0, 0, 20, 0, 0, 0],
        Event.fetchCall, Event.send [30, 0, 0, 0, 40, 0, 0, 0],
        Event.socketClose, Event.disposeCapture, Event.disposeMAPort], false) ∧
    ([Event.fetchCall, Event.send [10, 0, 0, 0, 20, 0, 0, 0],
        Event.fetchCall, Event.send [30, 0, 0, 0, 40, 0, 0, 0],
        Event.socketClose, Event.disposeCapture,
        Event.disposeMAPort].count Event.fetchCall = 2 ∧
      ¬ [Event.fetchCall, Event.send [10, 0, 0, 0, 20, 0, 0, 0],
        Event.fetchCall, Event.send [30, 0, 0, 0, 40, 0, 0, 0],
        Event.socketClose, Event.disposeCapture,
        Event.disposeMAPort].count Event.fetchCall = 3) := by
  refine ⟨?_, by decide, by decide⟩
  decide

/-- C3 amended: with observed states Idle, Armed, Running, Running, Running,
Finished and one non-empty fetch result in each running iteration, exactly
two batches are fetched, encoded and transmitted; when `Finished` is observed
the loop exits immediately — performing no drain fetch — then the sockets are
closed and teardown runs exactly once. -/
theorem claim_C3_amended (cols1 cols2 : List (List Nat))
    (h1 : zipRows cols1 ≠ []) (h2 : zipRows cols2 ≠ []) :
    ∃ evs,
      runDriver BUFFER_SIZE
          [CapState.idle, CapState.armed, CapState.running, CapState.running,
            CapState.running, CapState.finished] [some cols1, some cols2] =
        some (evs, false) ∧
      evs = Event.fetchCall :: (rowSends (zipRows cols1) BUFFER_SIZE ++
          (Event.fetchCall :: (rowSends (zipRows cols2) BUFFER_SIZE ++
            [Event.socketClose, Event.disposeCapture, Event.disposeMAPort]))) ∧
      evs.count Event.fetchCall = 2 ∧
      evs.count Event.socketClose = 1 ∧
      evs.count Event.disposeCapture = 1 ∧
      evs.count Event.disposeMAPort = 1 := by
  have hrd : runDriver BUFFER_SIZE
      [CapState.idle, CapState.armed, CapState.running, CapState.running,
        CapState.running, CapState.finished] [some cols1, some cols2] =
      some ((Event.fetchCall :: (rowSends (zipRows cols1) BUFFER_SIZE ++
        Event.fetchCall :: (rowSends (zipRows cols2) BUFFER_SIZE ++ []))) ++
        [Event.socketClose, Event.disposeCapture, Event.disposeMAPort],
        false) := rfl
  have c1 : ∀ e : Event, (∀ c, e ≠ Event.send c) →
      (rowSends (zipRows cols1) BUFFER_SIZE).count e = 0 :=
    fun e he => rowSends_count _ _ e he
  have c2 : ∀ e : Event, (∀ c, e ≠ Event.send c) →
      (rowSends (zipRows cols2) BUFFER_SIZE).count e = 0 :=
    fun e he => rowSends_count _ _ e he
  refine ⟨_, ?_, rfl, ?_, ?_, ?_, ?_⟩
  · rw [hrd]
    simp only [List.cons_append, List.append_assoc, List.append_nil,
      List.nil_append]
  · simp [List.count_cons, List.count_append,
      c1 Event.fetchCall (fun c => by simp),
      c2 Event.fetchCall (fun c => by simp)]
  · simp [List.count_cons, List.count_append,
      c1 Event.socketClose (fun c => by simp),
      c2 Event.socketClose (fun c => by simp)]
  · simp [List.count_cons, List.count_append,
      c1 Event.disposeCapture (fun c => by simp),
      c2 Event.disposeCapture (fun c => by simp)]
  · simp [List.count_cons, List.count_append,
      c1 Event.disposeMAPort (fun c => by simp),
      c2 Event.disposeMAPort (fun c => by simp)]

/-- Witness for C3 (amended) at the batches `[[10], [20]]` and `[[30], [40]]`. -/
theorem claim_C3_amended_witness :
    (zipRows [[10], [20]] ≠ [] ∧ zipRows [[30], [40]] ≠ []) ∧
      ∃ evs,
        runDriver BUFFER_SIZE
            [CapState.idle, CapState.armed, CapState.running, CapState.running,
              CapState.running, CapState.finished]
            [some [[10], [20]], some [[30], [40]]] =
          some (evs, false) ∧
        evs = Event.fetchCall :: (rowSends (zipRows [[10], [20]]) BUFFER_SIZE ++
            (Event.fetchCall :: (rowSends (zipRows [[30], [40]]) BUFFER_SIZE ++
              [Event.socketClose, Event.disposeCapture, Event.disposeMAPort]))) ∧
        evs.count Event.fetchCall = 2 ∧
        evs.count Event.socketClose = 1 ∧
        evs.count Event.disposeCapture = 1 ∧
        evs.count Event.disposeMAPort = 1 :=
  ⟨⟨by decide, by decide⟩,
    claim_C3_amended [[10], [20]] [[30], [40]] (by decide) (by decide)⟩

/-- C4 counterexample: when a fetch raises while the capture is running, the
run ends with the error propagating after the `finally` disposals — but no
socket close occurs on this exit path, contradicting the claim that teardown
including the socket close runs on every exit path. -/
theorem claim_C4_counterexample :
    runDriver BUFFER_SIZE [CapState.running, CapState.running] [none] =
      some ([Event.fetchCall, Event.disposeCapture, Event.disposeMAPort],
        true) ∧
    Event.socketClose ∉
      [Event.fetchCall, Event.disposeCapture, Event.disposeMAPort] := by
  refine ⟨?_, by decide⟩
  decide

/-- C4 amended: on every completed exit path of the modelled session — normal
completion or an error raised in the streaming loop — the `finally` block
disposes the capture and the port exactly once each before the error (if any)
propagates, and re-running the guarded teardown block is a no-op; the socket
close, however, runs only on the normal-completion path and is skipped on
error paths. -/
theorem claim_C4_amended (M : Nat) (states : List CapState)
    (fetches : List (Option (List (List Nat)))) (evs : List Event) (err : Bool)
    (h : runDriver M states fetches = some (evs, err)) :
    evs.count Event.disposeCapture = 1 ∧
    evs.count Event.disposeMAPort = 1 ∧
    evs.count Event.socketClose = (if err then 0 else 1) ∧
    ∀ cap port : Option Unit,
      (finallyBlock (finallyBlock cap port).2.1 (finallyBlock cap port).2.2).1
        = [] := by
  cases hw : waitRunning states with
  | none =>
      unfold runDriver at h
      rw [hw] at h
      exact Option.noConfusion h
  | some rest =>
      unfold runDriver at h
      rw [hw] at h
      have h3 : (match fetchLoop M rest fetches with
          | (_, LoopExit.exhaustedExit) => none
          | (es, LoopExit.finishedExit) =>
              some (es ++ [Event.socketClose, Event.disposeCapture,
                Event.disposeMAPort], false)
          | (es, LoopExit.erroredExit) =>
              some (es ++ [Event.disposeCapture, Event.disposeMAPort], true)) =
          some (evs, err) := h
      clear h
      rcases hfl : fetchLoop M rest fetches with ⟨evs0, ex⟩
      rw [hfl] at h3
      have hdc : evs0.count Event.disposeCapture = 0 := by
        have := fetchLoop_count M rest fetches Event.disposeCapture
          (by simp) (fun c => by simp)
        rwa [hfl] at this
      have hdm : evs0.count Event.disposeMAPort = 0 := by
        have := fetchLoop_count M rest fetches Event.disposeMAPort
          (by simp) (fun c => by simp)
        rwa [hfl] at this
      have hsc : evs0.count Event.socketClose = 0 := by
        have := fetchLoop_count M rest fetches Event.socketClose
          (by simp) (fun c => by simp)
        rwa [hfl] at this
      cases ex with
      | exhaustedExit =>
          have h2 : (none : Option (List Event × Bool)) = some (evs, err) := h3
          exact Option.noConfusion h2
      | finishedExit =>
          have h2 : some (evs0 ++ [Event.socketClose, Event.disposeCapture,
              Event.disposeMAPort], false) = some (evs, err) := h3
          simp only [Option.some.injEq, Prod.mk.injEq] at h2
          obtain ⟨rfl, rfl⟩ := h2
          refine ⟨?_, ?_, ?_, fun cap port => rfl⟩ <;>
            simp [List.count_append, List.count_cons, hdc, hdm, hsc]
      | erroredExit =>
          have h2 : some (evs0 ++ [Event.disposeCapture, Event.disposeMAPort],
              true) = some (evs, err) := h3
          simp only [Option.some.injEq, Prod.mk.injEq] at h2
          obtain ⟨rfl, rfl⟩ := h2
          refine ⟨?_, ?_, ?_, fun cap port => rfl⟩ <;>
            simp [List.count_append, List.count_cons, hdc, hdm, hsc]

/-- Witness for C4 (amended) at a run that completes normally with no batch. -/
theorem claim_C4_amended_witness :
    runDriver BUFFER_SIZE [CapState.running, CapState.finished] [] =
        some ([Event.socketClose, Event.disposeCapture, Event.disposeMAPort],
          false) ∧
      ([Event.socketClose, Event.disposeCapture,
          Event.disposeMAPort].count Event.disposeCapture = 1 ∧
       [Event.socketClose, Event.disposeCapture,
          Event.disposeMAPort].count Event.disposeMAPort = 1 ∧
       [Event.socketClose, Event.disposeCapture,
          Event.disposeMAPort].count Event.socketClose = (if false then 0 else 1) ∧
       ∀ cap port : Option Unit,
         (finallyBlock (finallyBlock cap port).2.1
           (finallyBlock cap port).2.2).1 = []) :=
  ⟨by decide, claim_C4_amended BUFFER_SIZE [CapState.running, CapState.finished]
    [] _ false (by decide)⟩
